import Mathlib

/-!
Verification of the constraint-system prover in `src/bw6/src/prover.rs`
(`Prover::new`, `Prover::prove`, `Session`, `Domains`).

Polynomials are embedded as dense coefficient lists, mirroring the
`DensePolynomial` representation used by the source; evaluation vectors over a
domain are embedded as lists of field elements, mirroring `Evaluations`.
Elliptic-curve points of the inner curve are an abstract additive commutative
group together with affine coordinate maps into the scalar field, since the
curve arithmetic itself lives in an external crate.  The external polynomial
commitment scheme, the opening procedure and the Fiat-Shamir hash are abstract
function parameters, as the spec treats them as opaque interfaces.
-/

set_option linter.unusedSectionVars false

namespace APK

section Lists

variable {F : Type} [Field F]

/-- Coefficientwise sum of two dense coefficient vectors, padding the shorter
one with zeros; this is the additive behaviour of `DensePolynomial` addition
used throughout `prove`. -/
def padAdd : List F → List F → List F
  | [], q => q
  | p, [] => p
  | a :: p, b :: q => (a + b) :: padAdd p q

/-- Coefficientwise difference of two dense coefficient vectors. -/
def padSub : List F → List F → List F
  | [], q => q.map (fun c => -c)
  | p, [] => p
  | a :: p, b :: q => (a - b) :: padSub p q

/-- Scalar multiple of a coefficient vector; mirrors the helper `mul` of
`prover.rs` (lines 15-19), which maps `c ↦ s * c` over the coefficients. -/
def smulL (s : F) (p : List F) : List F := p.map (fun c => s * c)

/-- Multiplication by the indeterminate; mirrors the helper `mul_by_x` of
`prover.rs` (lines 21-25), which prepends a zero coefficient. -/
def mulByX (p : List F) : List F := (0 : F) :: p

/-- Horner evaluation of a dense coefficient vector, the semantics of
`Polynomial::evaluate`. -/
def evalList (p : List F) (x : F) : F := p.foldr (fun c acc => c + x * acc) 0

/-- Semantics of a dense coefficient vector as a `Polynomial`. -/
noncomputable def toPoly : List F → Polynomial F
  | [] => 0
  | c :: p => Polynomial.C c + Polynomial.X * toPoly p

/-- Resizing of a vector as done by `Vec::resize_with`: shorter vectors are
padded with the given element, longer vectors are truncated. -/
def resizeWith {α : Type} (v : List α) (n : ℕ) (c : α) : List α :=
  if v.length ≤ n then v ++ List.replicate (n - v.length) c else v.take n

@[simp] theorem toPoly_nil : toPoly ([] : List F) = 0 := rfl

@[simp] theorem toPoly_cons (c : F) (p : List F) :
    toPoly (c :: p) = Polynomial.C c + Polynomial.X * toPoly p := rfl

theorem toPoly_padAdd (p q : List F) : toPoly (padAdd p q) = toPoly p + toPoly q := by
  induction p generalizing q with
  | nil => simp [padAdd]
  | cons a p ih =>
    cases q with
    | nil => simp [padAdd]
    | cons b q => simp [padAdd, ih]; ring

theorem toPoly_map_neg (q : List F) : toPoly (q.map (fun c => -c)) = -toPoly q := by
  induction q with
  | nil => simp
  | cons b q ih => simp [ih]; ring

theorem toPoly_padSub (p q : List F) : toPoly (padSub p q) = toPoly p - toPoly q := by
  induction p generalizing q with
  | nil => simp [padSub, toPoly_map_neg]
  | cons a p ih =>
    cases q with
    | nil => simp [padSub]
    | cons b q =>
      simp [padSub, ih, Polynomial.C_sub]
      ring

theorem toPoly_smulL (s : F) (p : List F) : toPoly (smulL s p) = Polynomial.C s * toPoly p := by
  induction p with
  | nil => simp [smulL]
  | cons a p ih => simp [smulL] at ih ⊢; rw [ih]; ring

theorem toPoly_mulByX (p : List F) : toPoly (mulByX p) = Polynomial.X * toPoly p := by
  simp [mulByX]

theorem toPoly_take_drop (n : ℕ) (p : List F) :
    toPoly p = toPoly (p.take n) + Polynomial.X ^ n * toPoly (p.drop n) := by
  induction n generalizing p with
  | zero => simp
  | succ n ih =>
    cases p with
    | nil => simp
    | cons a p =>
      simp only [List.take_succ_cons, List.drop_succ_cons, toPoly_cons, ih p]
      ring

theorem toPoly_eq_zero_of_all_zero {p : List F} (h : ∀ c ∈ p, c = 0) : toPoly p = 0 := by
  induction p with
  | nil => rfl
  | cons a q ih =>
    have ha : a = 0 := h a (List.mem_cons_self a q)
    have hq : toPoly q = 0 := ih (fun c hc => h c (List.mem_cons_of_mem a hc))
    simp [ha, hq]

theorem padAdd_length (p q : List F) : (padAdd p q).length = max p.length q.length := by
  induction p generalizing q with
  | nil => simp [padAdd]
  | cons a p ih =>
    cases q with
    | nil => simp [padAdd]
    | cons b q => simp [padAdd, ih, Nat.succ_max_succ]

variable [DecidableEq F]

/-- Coefficient vector with trailing zeros removed; `DensePolynomial`
maintains this normal form (`from_coefficients_vec` truncates leading zeros). -/
def trim (p : List F) : List F := (p.reverse.dropWhile (fun c => decide (c = 0))).reverse

/-- Degree of a dense coefficient vector as computed by
`DensePolynomial::degree`: zero for the zero polynomial, otherwise the trimmed
length minus one. -/
def natDeg (p : List F) : ℕ := (trim p).length - 1

theorem trim_eq_nil_iff {p : List F} : trim p = [] ↔ ∀ c ∈ p, c = 0 := by
  unfold trim
  rw [List.reverse_eq_nil_iff]
  constructor
  · intro h c hc
    by_contra hne
    have hmem : c ∈ p.reverse := List.mem_reverse.mpr hc
    have := List.dropWhile_eq_nil_iff.mp h
    simpa [hne] using this c hmem
  · intro h
    rw [List.dropWhile_eq_nil_iff]
    intro x hx
    simp [h x (List.mem_reverse.mp hx)]

theorem toPoly_eq_zero_of_trim_nil {p : List F} (h : trim p = []) : toPoly p = 0 :=
  toPoly_eq_zero_of_all_zero (trim_eq_nil_iff.mp h)

end Lists

section VanishDiv

variable {F : Type} [Field F] [DecidableEq F]

/-- Fuel-driven worker for division by the vanishing polynomial
`Z(X) = X^n - 1`.  The recursion uses `X^n ≡ 1 (mod Z)`: for `p = lo + X^n·hi`
we have `p = (X^n - 1)·hi + (lo + hi)`, and each step shortens the vector, so
`p.length` is enough fuel. -/
def vanishDivGo (n : ℕ) : ℕ → List F → List F × List F
  | 0, p => ([], p)
  | fuel + 1, p =>
    if n = 0 ∨ p.length ≤ n then ([], p)
    else
      (padAdd (p.drop n) (vanishDivGo n fuel (padAdd (p.take n) (p.drop n))).1,
       (vanishDivGo n fuel (padAdd (p.take n) (p.drop n))).2)

/-- Modelled from the spec: division of a polynomial by the vanishing
polynomial `Z(X) = X^n - 1` with quotient and remainder (spec section 4.A; the
implementation `divide_by_vanishing_poly` lives in the external `ark-poly`
crate, outside `src/`).  The defining property `p = Z·q + r`, `len r ≤ n` is
proved in `vanishDiv_spec`. -/
def vanishDiv (n : ℕ) (p : List F) : List F × List F := vanishDivGo n p.length p

theorem vanishDivGo_spec (n : ℕ) (hn : 0 < n) :
    ∀ (fuel : ℕ) (p : List F), p.length ≤ fuel →
      toPoly p =
        (Polynomial.X ^ n - 1) * toPoly (vanishDivGo n fuel p).1 +
          toPoly (vanishDivGo n fuel p).2 ∧
      (vanishDivGo n fuel p).2.length ≤ n := by
  intro fuel
  induction fuel with
  | zero =>
    intro p hp
    have : p = [] := List.length_eq_zero.mp (Nat.le_zero.mp hp)
    subst this
    simp [vanishDivGo]
  | succ fuel ih =>
    intro p hp
    rw [vanishDivGo]
    by_cases h : n = 0 ∨ p.length ≤ n
    · rw [if_pos h]
      rcases h with h | h
      · omega
      · simpa using h
    · rw [if_neg h]
      push_neg at h
      obtain ⟨hn0, hlt⟩ := h
      have hlen : (padAdd (p.take n) (p.drop n)).length ≤ fuel := by
        rw [padAdd_length]
        simp only [List.length_take, List.length_drop]
        omega
      have hrec := ih (padAdd (p.take n) (p.drop n)) hlen
      have hrec1 := hrec.1
      rw [toPoly_padAdd] at hrec1
      refine ⟨?_, hrec.2⟩
      dsimp only
      rw [toPoly_padAdd, toPoly_take_drop n p]
      linear_combination hrec1

theorem vanishDiv_spec (n : ℕ) (hn : 0 < n) (p : List F) :
    toPoly p =
      (Polynomial.X ^ n - 1) * toPoly (vanishDiv n p).1 + toPoly (vanishDiv n p).2 ∧
    (vanishDiv n p).2.length ≤ n :=
  vanishDivGo_spec n hn p.length p le_rfl

/-- Remainder of division by the vanishing polynomial is zero as a polynomial
when its trimmed coefficient vector is empty, and then `Z(X)` divides. -/
theorem vanishDiv_dvd (n : ℕ) (hn : 0 < n) (p : List F)
    (h : trim (vanishDiv n p).2 = []) :
    toPoly p = (Polynomial.X ^ n - 1) * toPoly (vanishDiv n p).1 := by
  have := (vanishDiv_spec n hn p).1
  rw [toPoly_eq_zero_of_trim_nil h] at this
  simpa using this

end VanishDiv

section Domains

variable {F : Type} [Field F] [DecidableEq F]

/-- Modelled from the spec: `interpolate(values_of_length_n) → polynomial`,
the inverse FFT on the size-`n` domain (spec section 4.A; the FFT lives in
the external `ark-poly` crate, outside `src/`).  `winv` and `ninv` are the
cached `group_gen_inv` and `size_inv` fields of the evaluation domain, i.e.
the inverses of the domain generator and of `n`.  The `j`-th coefficient of
the interpolant is `n⁻¹ · Σ_i v_i · w^(-i·j)`, which is the Horner evaluation
of `v` at `winv ^ j`.  Inputs shorter than `n` are implicitly zero-padded,
exactly as `ifft` resizes its input to the domain size. -/
def interp (winv ninv : F) (n : ℕ) (v : List F) : List F :=
  (List.range n).map (fun j => ninv * evalList v (winv ^ j))

/-- Modelled from the spec: forward evaluation of a polynomial over the
domain of size `k` with generator `g` (`evaluate_over_domain`, spec section
4.A); the `i`-th evaluation is the value at `g ^ i`. -/
def evalsAt (g : F) (k : ℕ) (p : List F) : List F :=
  (List.range k).map (fun i => evalList p (g ^ i))

/-- The `amplify` operator of `Domains` (lines 104-117 of `prover.rs`):
interpolate `n` evaluations on the small domain (cached inverse generator
`winv`, cached `n⁻¹` value `ninv`), then re-evaluate over the `4n` domain
with generator `g`.  The small-domain generator is `g ^ 4`, as both domains
are subgroups of the same radix-2 tower. -/
def amplifyF (g winv ninv : F) (n : ℕ) (v : List F) : List F :=
  evalsAt g (4 * n) (interp winv ninv n v)

/-- The basis vector `li` of `Domains` (lines 127-131): a length-`n` vector
that is `1` at index `i` and `0` elsewhere. -/
def basisVec (i n : ℕ) : List F :=
  (List.range n).map (fun j => if j = i then (1 : F) else 0)

theorem evalList_nil (x : F) : evalList ([] : List F) x = 0 := rfl

theorem evalList_cons (a : F) (p : List F) (x : F) :
    evalList (a :: p) x = a + x * evalList p x := rfl

theorem evalList_append (p q : List F) (x : F) :
    evalList (p ++ q) x = evalList p x + x ^ p.length * evalList q x := by
  induction p with
  | nil => simp [evalList]
  | cons a t ih =>
      rw [List.cons_append, evalList_cons, evalList_cons, ih, List.length_cons]
      ring

theorem evalList_map_range (f : ℕ → F) (n : ℕ) (x : F) :
    evalList ((List.range n).map f) x = ∑ j ∈ Finset.range n, f j * x ^ j := by
  induction n with
  | zero => simp [evalList]
  | succ k ih =>
      rw [List.range_succ, List.map_append, evalList_append, ih,
        Finset.sum_range_succ, List.length_map, List.length_range]
      simp only [List.map_cons, List.map_nil, evalList_cons, evalList_nil]
      ring

end Domains

section Evals

variable {F : Type} [Field F]

/-- Pointwise sum of two evaluation vectors over a common domain, the `Add`
of `Evaluations`. -/
def evAdd (a b : List F) : List F := List.zipWith (· + ·) a b

/-- Pointwise difference of two evaluation vectors, the `Sub` of
`Evaluations`. -/
def evSub (a b : List F) : List F := List.zipWith (fun x y => x - y) a b

/-- Pointwise product of two evaluation vectors, the `Mul` of
`Evaluations`. -/
def evMul (a b : List F) : List F := List.zipWith (· * ·) a b

/-- The helper `add_constant` of `prover.rs` (lines 27-29): add a constant to
every evaluation. -/
def addConstE (p : List F) (c : F) : List F := p.map (fun x => c + x)

/-- The vector `nB` of `prove` (lines 244-247): pointwise `1 - B`. -/
def oneMinus (b : List F) : List F := b.map (fun x => 1 - x)

/-- The constraint vector `a1` of `prove` (lines 249-268), with the same
nesting of pointwise operations as the source expression. -/
def a1Ev (B nB x1 y1 x2 y2 x3 y3 : List F) : List F :=
  evAdd
    (evMul B
      (evSub
        (evMul (evMul (evSub x1 x2) (evSub x1 x2)) (evAdd (evAdd x1 x2) x3))
        (evMul (evSub y2 y1) (evSub y2 y1))))
    (evMul nB (evSub y3 y1))

/-- The constraint vector `a2` of `prove` (lines 270-284). -/
def a2Ev (B nB x1 y1 x2 y2 x3 y3 : List F) : List F :=
  evAdd
    (evMul B
      (evSub
        (evMul (evSub x1 x2) (evAdd y3 y1))
        (evMul (evSub y2 y1) (evSub x3 x1))))
    (evMul nB (evSub x3 x1))

/-- The constraint vector `a3` of `prove` (line 286). -/
def a3Ev (B nB : List F) : List F := evMul B nB

/-- The constraint vector `a4` of `prove` (lines 289-295): built from
`add_constant(x1, -h_x)`, `add_constant(x1, -apk_plus_h_x)` and the cached
Lagrange evaluation vectors `l1`, `ln`. -/
def a4Ev (x1 l1 ln : List F) (hx apkhx : F) : List F :=
  evAdd (evMul (addConstE x1 (-hx)) l1) (evMul (addConstE x1 (-apkhx)) ln)

/-- The constraint vector `a5` of `prove` (lines 290-296), the `y` analogue of
`a4`. -/
def a5Ev (y1 l1 ln : List F) (hy apkhy : F) : List F :=
  evAdd (evMul (addConstE y1 (-hy)) l1) (evMul (addConstE y1 (-apkhy)) ln)

/-- The vector `powers_of_phi` of `prove` (lines 323-328): starting from
`curr = φ`, three further multiplications by `φ` are pushed. -/
def powersOfPhi (phi : F) : List F :=
  let c1 := phi
  let c2 := c1 * phi
  let c3 := c2 * phi
  let c4 := c3 * phi
  [c1, c2, c3, c4]

/-- The vector `powers_of_nu` of `prove` (lines 367-372): starting from
`curr = ν`, five further multiplications by `ν` are pushed. -/
def powersOfNu (nu : F) : List F :=
  let c1 := nu
  let c2 := c1 * nu
  let c3 := c2 * nu
  let c4 := c3 * nu
  let c5 := c4 * nu
  let c6 := c5 * nu
  [c1, c2, c3, c4, c5, c6]

/-- The combined polynomial `w` of `prove` (lines 330-334): `a1 + φ·a2`, then
multiplication by `(X - ω⁻¹)` written as `X·w - ω⁻¹·w`, then the φ-weighted
`a3`, `a4`, `a5` terms. -/
def wComb (winv phi : F) (a1p a2p a3p a4p a5p : List F) : List F :=
  let pphi := powersOfPhi phi
  let w0 := padAdd a1p (smulL (pphi.getD 0 0) a2p)
  let w1 := padSub (mulByX w0) (smulL winv w0)
  let w2 := padAdd w1 (smulL (pphi.getD 1 0) a3p)
  let w3 := padAdd w2 (smulL (pphi.getD 2 0) a4p)
  padAdd w3 (smulL (pphi.getD 3 0) a5p)

/-- The batched opening polynomial `w2` of `prove` (line 374):
`acc_x + ν·acc_y`. -/
def w2Comb (nu : F) (accx accy : List F) : List F :=
  padAdd accx (smulL ((powersOfNu nu).getD 0 0) accy)

/-- The batched opening polynomial `w1` of `prove` (lines 377-380):
`pks_x + ν·pks_y + ν²·b + ν³·q + ν⁴·w2`. -/
def w1Comb (nu : F) (pksx pksy b q w2 : List F) : List F :=
  let pnu := powersOfNu nu
  let v0 := padAdd pksx (smulL (pnu.getD 0 0) pksy)
  let v1 := padAdd v0 (smulL (pnu.getD 1 0) b)
  let v2 := padAdd v1 (smulL (pnu.getD 2 0) q)
  padAdd v2 (smulL (pnu.getD 3 0) w2)

end Evals

section Accumulator

variable {F : Type} [Field F] [DecidableEq F]
variable {PT : Type} [AddCommGroup PT]

/-- The aggregate public key computed by `Session::compute_apk`
(lines 65-71): the sum of the public keys selected by the bitmask. -/
def apkSum (bits : List Bool) (pks : List PT) : PT :=
  ((((bits.zip pks).filter (fun bp => bp.1)).map (fun bp => bp.2))).sum

/-- The accumulator trace of `prove` (lines 186-193) over the zipped
bitmask/key list: `acc[0] = h` and `acc[i+1] = acc[i] + b[i]·P[i]`, where the
sum is the (complete) group operation of the inner curve.  The list returned
has one more entry than the input. -/
def accRec (h : PT) : List (Bool × PT) → List PT
  | [] => [h]
  | bp :: rest => h :: accRec (if bp.1 then h + bp.2 else h) rest

/-- The accumulator trace of `prove` as a function of the bitmask and the
public keys. -/
def accTrace (h : PT) (bits : List Bool) (pks : List PT) : List PT :=
  accRec h (bits.zip pks)

/-- Modelled from the spec: the guarded accumulator trace (spec section 4.C).
Each conditional addition `acc[i] + P[i]` is an affine short-Weierstrass
addition performed by the external curve crate, which per the spec hits an
exceptional case exactly when the two summands share an x-coordinate; `cx`
maps a point to its affine x-coordinate.  On an exceptional case the build
fails, otherwise each step is the group sum, as in `accRec`. -/
def accRecOpt (cx : PT → F) : PT → List (Bool × PT) → Option (List PT)
  | a, [] => some [a]
  | a, bp :: rest =>
    if bp.1 then
      if cx a = cx bp.2 then none
      else (accRecOpt cx (a + bp.2) rest).map (fun l => a :: l)
    else (accRecOpt cx a rest).map (fun l => a :: l)

/-- The guarded accumulator trace as a function of the bitmask and keys. -/
def accTraceOpt (cx : PT → F) (h : PT) (bits : List Bool) (pks : List PT) :
    Option (List PT) :=
  accRecOpt cx h (bits.zip pks)

theorem accRec_length (h : PT) (l : List (Bool × PT)) :
    (accRec h l).length = l.length + 1 := by
  induction l generalizing h with
  | nil => rfl
  | cons bp rest ih => simp [accRec, ih]

theorem accRecOpt_eq_accRec (cx : PT → F) (h : PT) (l : List (Bool × PT)) :
    ∀ t, accRecOpt cx h l = some t → t = accRec h l := by
  induction l generalizing h with
  | nil =>
    intro t ht
    simp only [accRecOpt] at ht
    simpa [accRec] using ht.symm
  | cons bp rest ih =>
    intro t ht
    simp only [accRecOpt] at ht
    by_cases hb : bp.1
    · rw [if_pos hb] at ht
      by_cases hx : cx h = cx bp.2
      · rw [if_pos hx] at ht
        exact absurd ht (by simp)
      · rw [if_neg hx] at ht
        rcases Option.map_eq_some'.mp ht with ⟨t', ht', rfl⟩
        simp [accRec, hb, ih (h + bp.2) t' ht']
    · rw [if_neg hb] at ht
      rcases Option.map_eq_some'.mp ht with ⟨t', ht', rfl⟩
      simp [accRec, hb, ih h t' ht']

end Accumulator

section Transcript

/-- Domain-separation labels used by `prove` when absorbing prover messages
and squeezing challenges; each mirrors one of the byte-string labels in
`prover.rs`. -/
inductive Lbl where
  | bComm | accXComm | accYComm | phi | qComm | zeta
  | bZeta | pksXZeta | pksYZeta | accXZeta | accYZeta | qZeta
  | accXZetaOmega | accYZetaOmega | nu
  deriving DecidableEq

/-- One event of the Fiat-Shamir transcript: the signer-set commitment
absorbed at construction, the public input `(apk, bitmask)`, an absorbed
commitment, an absorbed evaluation, or a squeeze of a labelled challenge.
`Cm` is the opaque commitment type of the external scheme. -/
inductive TItem (F PT Cm : Type) where
  | sigComm (c : Cm)
  | pubInput (apk : PT) (bits : List Bool)
  | point (l : Lbl) (c : Cm)
  | scalar (l : Lbl) (v : F)
  | chal (l : Lbl)
  deriving DecidableEq

/-- Capacity queries of the external KZG prover key (spec section 6):
`max_coeffs` and `max_degree`. -/
structure KzgPk where
  maxCoeffs : ℕ
  maxDegree : ℕ
  deriving DecidableEq

end Transcript

section Prover

variable {F : Type} [Field F] [DecidableEq F]
variable {PT : Type} [AddCommGroup PT] [DecidableEq PT]
variable {Cm Op : Type} [DecidableEq Cm] [DecidableEq Op]

/-- The state assembled by `Prover::new` (lines 141-170): the domain size and
KZG key (`Params`), the complement point `h` (`point_in_g1_complement()`, a
fixed system parameter), the generator `g` of the size-`4n` domain (the
size-`n` domain generator is `g ^ 4`, both being members of the same radix-2
tower of subgroups), the signer keys, the cached session polynomials and
their `4n`-evaluations (`Session::new`, lines 46-63), the cached Lagrange
evaluation vectors (`Domains::new`, lines 84-102), and the preprocessed
transcript. -/
structure PState (F PT Cm : Type) where
  n : ℕ
  pk : KzgPk
  h : PT
  g : F
  ginv : F
  winv : F
  ninv : F
  n4inv : F
  pks : List PT
  pksXPoly : List F
  pksYPoly : List F
  pksXE4 : List F
  pksYE4 : List F
  l1E4 : List F
  lnE4 : List F
  preT : List (TItem F PT Cm)
  deriving DecidableEq

/-- The `Proof` record returned by `prove` (lines 383-401). -/
structure ProofRec (F Cm Op : Type) where
  bComm : Cm
  accXComm : Cm
  accYComm : Cm
  qComm : Cm
  bZeta : F
  pksXZeta : F
  pksYZeta : F
  accXZeta : F
  accYZeta : F
  qZeta : F
  accXZetaOmega : F
  accYZetaOmega : F
  w1Proof : Op
  w2Proof : Op
  deriving DecidableEq

/-- A successful run of `prove`: the returned `Proof` together with the
intermediate values of the run (accumulator trace, resized vectors, trace
polynomials, combined polynomial, quotient and remainder, challenges, batched
opening polynomials, and the final transcript), recorded so that theorems can
speak about them. -/
structure Run (F PT Cm Op : Type) where
  bits : List Bool
  apk : PT
  acc : List PT
  bRes : List F
  accXRes : List F
  accYRes : List F
  bPoly : List F
  accXPoly : List F
  accYPoly : List F
  wPoly : List F
  qPoly : List F
  qRem : List F
  phi : F
  zeta : F
  zetaOmega : F
  nu : F
  w1 : List F
  w2 : List F
  transcript : List (TItem F PT Cm)
  proof : ProofRec F Cm Op
  deriving DecidableEq

/-- An `assert!` of the source: `some` exactly when the condition holds, so a
failed assertion aborts the (optional) computation like a Rust panic aborts
proof generation. -/
def ensure (c : Prop) [Decidable c] : Option (PLift c) :=
  if h : c then some ⟨h⟩ else none

theorem ensure_eq_some {c : Prop} [Decidable c] {x : PLift c}
    (h : ensure c = some x) : c := x.down

theorem ensure_isSome_iff {c : Prop} [Decidable c] : (ensure c).isSome = true ↔ c := by
  unfold ensure
  by_cases h : c <;> simp [h]

theorem ensure_eq_none_iff {c : Prop} [Decidable c] : ensure c = none ↔ ¬c := by
  unfold ensure
  by_cases h : c <;> simp [h]

/-- Fuel-driven binary population count; `n` itself is enough fuel. -/
def countOnesGo : ℕ → ℕ → ℕ
  | 0, _ => 0
  | fuel + 1, n => if n = 0 then 0 else n % 2 + countOnesGo fuel (n / 2)

/-- Number of set bits of a natural number, as `usize::count_ones`. -/
def countOnes (n : ℕ) : ℕ := countOnesGo n n

/-- The Rust `usize::is_power_of_two`, which tests `count_ones() == 1`. -/
def isPowerOfTwo (n : ℕ) : Bool := decide (countOnes n = 1)

variable (cx cy : PT → F)

/-- The constructor `Prover::new` (lines 142-170): asserts that the domain
size is a power of two and does not exceed the SRS length `max_coeffs`,
absorbs the signer-set commitment into the transcript, and builds the domain
and session caches.  `h` and `g` stand for the fixed complement point and
the domain generator supplied by the environment; the domain constructor also
caches the inverse generators and inverse sizes of the two domains
(`group_gen_inv` / `size_inv` of `Radix2EvaluationDomain`). -/
def newModel (domainSize : ℕ) (kzgPk : KzgPk) (signerSetComm : Cm) (pks : List PT)
    (emptyTranscript : List (TItem F PT Cm)) (h : PT) (g : F) :
    Option (PState F PT Cm) :=
  if isPowerOfTwo domainSize = true ∧ domainSize ≤ kzgPk.maxCoeffs then
    let n := domainSize
    let winv := (g ^ 4)⁻¹
    let ninv := (n : F)⁻¹
    let pksXPoly := interp winv ninv n (resizeWith (pks.map cx) n 0)
    let pksYPoly := interp winv ninv n (resizeWith (pks.map cy) n 0)
    some { n := n, pk := kzgPk, h := h, g := g,
           ginv := g⁻¹, winv := winv, ninv := ninv, n4inv := ((4 * n : ℕ) : F)⁻¹,
           pks := pks,
           pksXPoly := pksXPoly, pksYPoly := pksYPoly,
           pksXE4 := evalsAt g (4 * n) pksXPoly,
           pksYE4 := evalsAt g (4 * n) pksYPoly,
           l1E4 := amplifyF g winv ninv n (basisVec 0 n),
           lnE4 := amplifyF g winv ninv n (basisVec (n - 1) n),
           preT := emptyTranscript ++ [TItem.sigComm signerSetComm] }
  else none

variable (commitF : List F → Cm) (openF : List F → F → Op)
variable (oracle : List (TItem F PT Cm) → Lbl → Fin (2 ^ 128))

/-- Outcome of the accumulator phase of `prove` (lines 174-219): the bitmask
and size checks, the aggregate key, the guarded accumulator trace with its
endpoint asserts, the field-encoded bitmask and coordinate vectors resized to
the domain size, and their left-rotations.  `apkhx`/`apkhy` are the
coordinates `apk_plus_h_x`/`apk_plus_h_y` read off index `m` before the
resize. -/
structure TraceData (F PT : Type) where
  apk : PT
  acc : List PT
  bRes : List F
  accXRes : List F
  accYRes : List F
  xShift : List F
  yShift : List F
  apkhx : F
  apkhy : F
  deriving DecidableEq

/-- Outcome of the trace-polynomial phase of `prove` (lines 222-231):
interpolants of the bitmask and accumulator coordinate vectors, their
commitments, and the length/degree asserts on the bitmask interpolant. -/
structure PolyData (F Cm : Type) where
  bPoly : List F
  accXPoly : List F
  accYPoly : List F
  bComm : Cm
  accXComm : Cm
  accYComm : Cm
  deriving DecidableEq

/-- The five constraint evaluation vectors over the `4n` domain, assembled by
`prove` (lines 236-296) from the amplified trace polynomials, the cached
signer-set evaluations and the Lagrange selector evaluations. -/
structure ConstrEvs (F : Type) where
  a1 : List F
  a2 : List F
  a3 : List F
  a4 : List F
  a5 : List F
  deriving DecidableEq

/-- Outcome of the constraint phase of `prove` (lines 298-316): the five
constraint polynomials interpolated from their `4n`-evaluation vectors,
after the degree and divisibility asserts. -/
structure ConstrData (F : Type) where
  a1p : List F
  a2p : List F
  a3p : List F
  a4p : List F
  a5p : List F
  deriving DecidableEq

/-- Outcome of the quotient phase of `prove` (lines 318-341): the challenge
`φ`, the combined polynomial `w`, its quotient and remainder on division by
the vanishing polynomial, the quotient commitment, and the transcript after
`q_comm` was absorbed. -/
structure QData (F PT Cm : Type) where
  phi : F
  wP : List F
  qPoly : List F
  qRem : List F
  qComm : Cm
  t3 : List (TItem F PT Cm)
  deriving DecidableEq

/-- The accumulator phase of `prove` (lines 174-219): asserts
`b.size() == m` and `count_ones > 0`, computes `apk`, builds the conditional
addition trace (each addition failing on the exceptional equal-x case, per
the spec), asserts the trace endpoints against `h` and `apk + h`, encodes the
bitmask into the field, and resizes all three vectors to length `n`
(`resize_with`), recording the left-rotated coordinate vectors. -/
def proveTrace (st : PState F PT Cm) (b : List Bool) : Option (TraceData F PT) := do
  let m := st.pks.length
  let _ ← ensure (b.length = m)
  let _ ← ensure (0 < b.count true)
  let apk := apkSum b st.pks
  let acc ← accTraceOpt cx st.h b st.pks
  let accX := acc.map cx
  let accY := acc.map cy
  let _ ← ensure (acc.getD 0 0 = st.h)
  let _ ← ensure (acc.getD m 0 = apk + st.h)
  let bF : List F := b.map (fun bi => if bi then 1 else 0)
  let bRes := resizeWith bF st.n 0
  let apkhx := accX.getD m 0
  let apkhy := accY.getD m 0
  let accXRes := resizeWith accX st.n apkhx
  let accYRes := resizeWith accY st.n apkhy
  some { apk := apk, acc := acc, bRes := bRes,
         accXRes := accXRes, accYRes := accYRes,
         xShift := accXRes.rotate 1, yShift := accYRes.rotate 1,
         apkhx := apkhx, apkhy := apkhy }

/-- The trace-polynomial phase of `prove` (lines 222-231): interpolate the
three resized vectors on the small domain, commit to them, and perform the
`coeffs.len()`/`degree()` asserts on the bitmask interpolant. -/
def provePolys (st : PState F PT Cm) (td : TraceData F PT) : Option (PolyData F Cm) := do
  let bPoly := interp st.winv st.ninv st.n td.bRes
  let accXPoly := interp st.winv st.ninv st.n td.accXRes
  let accYPoly := interp st.winv st.ninv st.n td.accYRes
  let _ ← ensure ((trim bPoly).length = st.n)
  let _ ← ensure (natDeg bPoly = st.n - 1)
  some { bPoly := bPoly, accXPoly := accXPoly, accYPoly := accYPoly,
         bComm := commitF bPoly, accXComm := commitF accXPoly,
         accYComm := commitF accYPoly }

/-- The constraint-vector phase of `prove` (lines 236-296): evaluate the
trace polynomials over the `4n` domain, fetch the cached signer-set and
Lagrange evaluations, amplify the rotated accumulator vectors, and assemble
the five constraint evaluation vectors `a1..a5`.  This phase performs no
asserts. -/
def proveConstrEvs (st : PState F PT Cm) (td : TraceData F PT) (pd : PolyData F Cm) :
    ConstrEvs F :=
  let n := st.n
  let B := evalsAt st.g (4 * n) pd.bPoly
  let x1 := evalsAt st.g (4 * n) pd.accXPoly
  let y1 := evalsAt st.g (4 * n) pd.accYPoly
  let x2 := st.pksXE4
  let y2 := st.pksYE4
  let x3 := amplifyF st.g st.winv st.ninv n td.xShift
  let y3 := amplifyF st.g st.winv st.ninv n td.yShift
  let nB := oneMinus B
  { a1 := a1Ev B nB x1 y1 x2 y2 x3 y3,
    a2 := a2Ev B nB x1 y1 x2 y2 x3 y3,
    a3 := a3Ev B nB,
    a4 := a4Ev x1 st.l1E4 st.lnE4 (cx st.h) td.apkhx,
    a5 := a5Ev y1 st.l1E4 st.lnE4 (cy st.h) td.apkhy }

/-- The constraint-polynomial phase of `prove` (lines 298-316): interpolate
the five constraint vectors over the `4n` domain, assert their degrees, form
`X·a_k − ω⁻¹·a_k` for the first two, and assert divisibility of all five by
the vanishing polynomial. -/
def proveConstraints (st : PState F PT Cm) (ce : ConstrEvs F) :
    Option (ConstrData F) := do
  let n := st.n
  let a1p := interp st.ginv st.n4inv (4 * n) ce.a1
  let a2p := interp st.ginv st.n4inv (4 * n) ce.a2
  let a3p := interp st.ginv st.n4inv (4 * n) ce.a3
  let a4p := interp st.ginv st.n4inv (4 * n) ce.a4
  let a5p := interp st.ginv st.n4inv (4 * n) ce.a5
  let _ ← ensure (natDeg a1p = 4 * (n - 1))
  let _ ← ensure (natDeg a2p = 3 * (n - 1))
  let _ ← ensure (natDeg a3p = 2 * (n - 1))
  let _ ← ensure (natDeg a4p = 2 * (n - 1))
  let _ ← ensure (natDeg a5p = 2 * (n - 1))
  let a1x := padSub (mulByX a1p) (smulL st.winv a1p)
  let a2x := padSub (mulByX a2p) (smulL st.winv a2p)
  let _ ← ensure (trim (vanishDiv n a1x).2 = [])
  let _ ← ensure (trim (vanishDiv n a2x).2 = [])
  let _ ← ensure (trim (vanishDiv n a3p).2 = [])
  let _ ← ensure (trim (vanishDiv n a4p).2 = [])
  let _ ← ensure (trim (vanishDiv n a5p).2 = [])
  some { a1p := a1p, a2p := a2p, a3p := a3p, a4p := a4p, a5p := a5p }

/-- The quotient phase of `prove` (lines 318-341): absorb the public input
and the three trace commitments, squeeze the 128-bit challenge `φ` and embed
it in the field, batch the constraints into `w`, divide by the vanishing
polynomial, assert the zero remainder, the quotient degree `3n − 3` and the
exact SRS capacity, commit to the quotient and absorb it. -/
def proveQ (st : PState F PT Cm) (b : List Bool) (td : TraceData F PT)
    (pd : PolyData F Cm) (cd : ConstrData F) : Option (QData F PT Cm) := do
  let n := st.n
  let t0 := st.preT ++ [TItem.pubInput td.apk b]
  let t1 := t0 ++ [TItem.point Lbl.bComm pd.bComm, TItem.point Lbl.accXComm pd.accXComm,
                   TItem.point Lbl.accYComm pd.accYComm]
  let phi : F := ((oracle t1 Lbl.phi).val : F)
  let t2 := t1 ++ [TItem.chal Lbl.phi]
  let wP := wComb st.winv phi cd.a1p cd.a2p cd.a3p cd.a4p cd.a5p
  let qPoly := (vanishDiv n wP).1
  let qRem := (vanishDiv n wP).2
  let _ ← ensure (trim qRem = [])
  let _ ← ensure (natDeg qPoly = 3 * n - 3)
  let _ ← ensure (st.pk.maxDegree = natDeg qPoly)
  let qComm := commitF qPoly
  some { phi := phi, wP := wP, qPoly := qPoly, qRem := qRem, qComm := qComm,
         t3 := t2 ++ [TItem.point Lbl.qComm qComm] }

/-- The opening phase of `prove` (lines 343-402): squeeze `ζ`, evaluate the
six polynomials at `ζ` and the accumulator polynomials at `ζ·ω`, absorb the
eight evaluations in source order, squeeze `ν`, form the two batched opening
polynomials, open them, and assemble the returned record.  This phase
performs no asserts. -/
def proveOpenings (st : PState F PT Cm) (b : List Bool) (td : TraceData F PT)
    (pd : PolyData F Cm) (qd : QData F PT Cm) : Run F PT Cm Op :=
  let w := st.g ^ 4
  let zeta : F := ((oracle qd.t3 Lbl.zeta).val : F)
  let t4 := qd.t3 ++ [TItem.chal Lbl.zeta]
  let bZeta := evalList pd.bPoly zeta
  let pksXZeta := evalList st.pksXPoly zeta
  let pksYZeta := evalList st.pksYPoly zeta
  let accXZeta := evalList pd.accXPoly zeta
  let accYZeta := evalList pd.accYPoly zeta
  let qZeta := evalList qd.qPoly zeta
  let zetaOmega := zeta * w
  let accXZetaOmega := evalList pd.accXPoly zetaOmega
  let accYZetaOmega := evalList pd.accYPoly zetaOmega
  let t5 := t4 ++ [TItem.scalar Lbl.bZeta bZeta, TItem.scalar Lbl.pksXZeta pksXZeta,
                   TItem.scalar Lbl.pksYZeta pksYZeta, TItem.scalar Lbl.accXZeta accXZeta,
                   TItem.scalar Lbl.accYZeta accYZeta, TItem.scalar Lbl.qZeta qZeta,
                   TItem.scalar Lbl.accXZetaOmega accXZetaOmega,
                   TItem.scalar Lbl.accYZetaOmega accYZetaOmega]
  let nu : F := ((oracle t5 Lbl.nu).val : F)
  let t6 := t5 ++ [TItem.chal Lbl.nu]
  let w2P := w2Comb nu pd.accXPoly pd.accYPoly
  let w1P := w1Comb nu st.pksXPoly st.pksYPoly pd.bPoly qd.qPoly w2P
  { bits := b, apk := td.apk, acc := td.acc, bRes := td.bRes,
    accXRes := td.accXRes, accYRes := td.accYRes,
    bPoly := pd.bPoly, accXPoly := pd.accXPoly, accYPoly := pd.accYPoly,
    wPoly := qd.wP, qPoly := qd.qPoly, qRem := qd.qRem,
    phi := qd.phi, zeta := zeta, zetaOmega := zetaOmega, nu := nu,
    w1 := w1P, w2 := w2P, transcript := t6,
    proof := { bComm := pd.bComm, accXComm := pd.accXComm, accYComm := pd.accYComm,
               qComm := qd.qComm, bZeta := bZeta, pksXZeta := pksXZeta,
               pksYZeta := pksYZeta, accXZeta := accXZeta, accYZeta := accYZeta,
               qZeta := qZeta, accXZetaOmega := accXZetaOmega,
               accYZetaOmega := accYZetaOmega,
               w1Proof := openF w1P zeta, w2Proof := openF w2P zetaOmega } }

/-- The prover `Prover::prove` (lines 172-402), as the composition of its
five phases in source order.  External interfaces are parameters:
`commitF`/`openF` are the KZG commitment and opening procedures, and
`oracle` is the Fiat-Shamir hash, which squeezes a 128-bit integer from the
current transcript; the integer is embedded into the scalar field.  Every
`assert!`/`assert_eq!` of the source whose truth depends on the inputs
appears as an `ensure` guard in source order (the length asserts of lines
199-200 and the domain-size assert of line 234 hold by construction of the
model and are omitted).  On success the full `Run` is returned; its `proof`
field is the `Proof` value the source returns. -/
def proveRun (st : PState F PT Cm) (b : List Bool) : Option (Run F PT Cm Op) := do
  let td ← proveTrace cx cy st b
  let pd ← provePolys commitF st td
  let cd ← proveConstraints st (proveConstrEvs cx cy st td pd)
  let qd ← proveQ commitF oracle st b td pd cd
  some (proveOpenings openF oracle st b td pd qd)
end Prover

section ConcreteInstance

/-- Concrete stand-in for the scalar field: `Z/17`, which has the required
16th roots of unity for a domain of size `n = 4` with `4n = 16`. -/
abbrev F17 := ZMod 17

instance : Fact (Nat.Prime 17) := ⟨by norm_num⟩

/-- Concrete stand-in for the inner-curve group: the points of
`y² = x³ + 2x + 2` over `F17` form a cyclic group of prime order 19 generated
by `G = (5, 1)`; the element `k : Z/19` represents the point `k·G`. -/
abbrev P19 := ZMod 19

/-- x-coordinates of `0·G, 1·G, …, 18·G` on the concrete curve; the identity
gets the affine placeholder `(0, 0)`, which no run below ever reads. -/
def xTab : List F17 := [0, 5, 6, 10, 3, 9, 16, 0, 13, 7, 7, 13, 0, 16, 9, 3, 10, 6, 5]

/-- y-coordinates of `0·G, 1·G, …, 18·G` on the concrete curve. -/
def yTab : List F17 := [0, 1, 3, 6, 1, 16, 13, 6, 7, 6, 11, 10, 11, 4, 1, 16, 11, 14, 16]

/-- Affine x-coordinate of the concrete group element `k·G`. -/
def cx19 (k : P19) : F17 := xTab.getD k.val 0

/-- Affine y-coordinate of the concrete group element `k·G`. -/
def cy19 (k : P19) : F17 := yTab.getD k.val 0

/-- A constant Fiat-Shamir oracle for the concrete runs. -/
def egOracle : List (TItem F17 P19 (List F17)) → Lbl → Fin (2 ^ 128) :=
  fun _ _ => ⟨5, by norm_num⟩

/-- Identity commitment function for the concrete runs. -/
def egCommit : List F17 → List F17 := fun p => p

/-- Opening stand-in for the concrete runs: evaluate the polynomial at the
point. -/
def egOpen : List F17 → F17 → F17 := fun p z => evalList p z

/-- A concrete prover state: domain size `n = 4`, SRS capacities
`(max_coeffs, max_degree) = (10, 9)`, complement point `h = 1·G`, domain
generator `g = 3` (of order 16 in `F17`, so the small domain generator is
`ω = 3⁴ = 13`), cached inverses `g⁻¹ = 6`, `ω⁻¹ = 4`, `4⁻¹ = 13`,
`16⁻¹ = 16`, and signer set `[2·G, 1·G, 4·G]`, with the session caches
computed exactly as `Prover::new` computes them. -/
def egSt : PState F17 P19 (List F17) :=
  let px := interp 4 13 4 (resizeWith (([2, 1, 4] : List P19).map cx19) 4 0)
  let py := interp 4 13 4 (resizeWith (([2, 1, 4] : List P19).map cy19) 4 0)
  { n := 4, pk := ⟨10, 9⟩, h := 1, g := 3,
    ginv := 6, winv := 4, ninv := 13, n4inv := 16,
    pks := [2, 1, 4],
    pksXPoly := px, pksYPoly := py,
    pksXE4 := evalsAt 3 16 px, pksYE4 := evalsAt 3 16 py,
    l1E4 := amplifyF 3 4 13 4 (basisVec 0 4), lnE4 := amplifyF 3 4 13 4 (basisVec 3 4),
    preT := [TItem.sigComm [1]] }

/-- The concrete prover applied to a bitmask. -/
def egProve (bits : List Bool) : Option (Run F17 P19 (List F17) F17) :=
  proveRun cx19 cy19 egCommit egOpen egOracle egSt bits

/-- A bitmask selecting the first two of the three concrete signers. -/
def egBits : List Bool := [true, true, false]

/-- Accumulator-phase values of the concrete run: the trace is
`[G, 3G, 4G, 4G]` and `apk = 2G + 1G = 3G`. -/
def egTd : TraceData F17 P19 :=
  { apk := 3, acc := [1, 3, 4, 4], bRes := [1, 1, 0, 0],
    accXRes := [5, 10, 3, 3], accYRes := [1, 6, 1, 1],
    xShift := [10, 3, 3, 5], yShift := [6, 1, 1, 1], apkhx := 3, apkhy := 1 }

/-- Trace-polynomial-phase values of the concrete run. -/
def egPd : PolyData F17 (List F17) :=
  { bPoly := [9, 14, 0, 12], accXPoly := [1, 16, 3, 2], accYPoly := [15, 5, 3, 12],
    bComm := [9, 14, 0, 12], accXComm := [1, 16, 3, 2], accYComm := [15, 5, 3, 12] }

/-- Constraint evaluation vectors of the concrete run. -/
def egCe : ConstrEvs F17 :=
  { a1 := [0, 5, 6, 0, 0, 0, 0, 0, 0, 1, 14, 13, 0, 3, 10, 11],
    a2 := [0, 7, 13, 12, 0, 0, 9, 13, 0, 7, 16, 1, 2, 2, 6, 9],
    a3 := [0, 0, 13, 9, 0, 11, 5, 15, 0, 0, 13, 9, 0, 11, 5, 15],
    a4 := [0, 15, 9, 0, 0, 7, 9, 3, 0, 0, 8, 13, 0, 16, 13, 2],
    a5 := [0, 5, 7, 10, 0, 0, 11, 10, 0, 7, 6, 6, 0, 9, 15, 9] }

/-- Constraint polynomials of the concrete run. -/
def egCd : ConstrData F17 :=
  { a1p := [5, 12, 6, 10, 5, 12, 12, 2, 3, 10, 16, 5, 4, 0, 0, 0],
    a2p := [5, 3, 11, 3, 16, 1, 14, 16, 5, 11, 0, 0, 0, 0, 0, 0],
    a3p := [13, 0, 8, 0, 4, 0, 9, 0, 0, 0, 0, 0, 0, 0, 0, 0],
    a4p := [7, 9, 6, 0, 10, 8, 11, 0, 0, 0, 0, 0, 0, 0, 0, 0],
    a5p := [7, 9, 2, 0, 10, 8, 15, 0, 0, 0, 0, 0, 0, 0, 0, 0] }

/-- Quotient-phase values of the concrete run. -/
def egQd : QData F17 P19 (List F17) :=
  { phi := 5,
    wP := [15, 8, 11, 12, 9, 16, 5, 9, 4, 6, 1, 13, 6, 4, 0, 0, 0],
    qPoly := [2, 9, 6, 5, 10, 10, 1, 13, 6, 4, 0, 0, 0],
    qRem := [0, 0, 0, 0],
    qComm := [2, 9, 6, 5, 10, 10, 1, 13, 6, 4, 0, 0, 0],
    t3 := [TItem.sigComm [1], TItem.pubInput 3 [true, true, false],
           TItem.point Lbl.bComm [9, 14, 0, 12],
           TItem.point Lbl.accXComm [1, 16, 3, 2],
           TItem.point Lbl.accYComm [15, 5, 3, 12],
           TItem.chal Lbl.phi,
           TItem.point Lbl.qComm [2, 9, 6, 5, 10, 10, 1, 13, 6, 4, 0, 0, 0]] }

/-- The complete successful concrete run. -/
def egRun : Run F17 P19 (List F17) F17 :=
  { bits := [true, true, false], apk := 3, acc := [1, 3, 4, 4],
    bRes := [1, 1, 0, 0], accXRes := [5, 10, 3, 3], accYRes := [1, 6, 1, 1],
    bPoly := [9, 14, 0, 12], accXPoly := [1, 16, 3, 2], accYPoly := [15, 5, 3, 12],
    wPoly := [15, 8, 11, 12, 9, 16, 5, 9, 4, 6, 1, 13, 6, 4, 0, 0, 0],
    qPoly := [2, 9, 6, 5, 10, 10, 1, 13, 6, 4, 0, 0, 0],
    qRem := [0, 0, 0, 0],
    phi := 5, zeta := 5, zetaOmega := 14, nu := 5,
    w1 := [15, 11, 7, 3, 9, 9, 6, 10, 2, 7, 0, 0, 0],
    w2 := [8, 7, 1, 11],
    transcript := [TItem.sigComm [1], TItem.pubInput 3 [true, true, false],
                   TItem.point Lbl.bComm [9, 14, 0, 12],
                   TItem.point Lbl.accXComm [1, 16, 3, 2],
                   TItem.point Lbl.accYComm [15, 5, 3, 12],
                   TItem.chal Lbl.phi,
                   TItem.point Lbl.qComm [2, 9, 6, 5, 10, 10, 1, 13, 6, 4, 0, 0, 0],
                   TItem.chal Lbl.zeta,
                   TItem.scalar Lbl.bZeta 15, TItem.scalar Lbl.pksXZeta 2,
                   TItem.scalar Lbl.pksYZeta 16, TItem.scalar Lbl.accXZeta 15,
                   TItem.scalar Lbl.accYZeta 0, TItem.scalar Lbl.qZeta 8,
                   TItem.scalar Lbl.accXZetaOmega 11, TItem.scalar Lbl.accYZetaOmega 9,
                   TItem.chal Lbl.nu],
    proof := { bComm := [9, 14, 0, 12], accXComm := [1, 16, 3, 2],
               accYComm := [15, 5, 3, 12],
               qComm := [2, 9, 6, 5, 10, 10, 1, 13, 6, 4, 0, 0, 0],
               bZeta := 15, pksXZeta := 2, pksYZeta := 16, accXZeta := 15,
               accYZeta := 0, qZeta := 8, accXZetaOmega := 11, accYZetaOmega := 9,
               w1Proof := 3, w2Proof := 5 } }

theorem egTrace_eq : proveTrace cx19 cy19 egSt egBits = some egTd := by decide

theorem egPolys_eq : provePolys egCommit egSt egTd = some egPd := by decide

theorem egCe_eq : proveConstrEvs cx19 cy19 egSt egTd egPd = egCe := by decide

theorem egConstr_eq : proveConstraints egSt egCe = some egCd := by decide

theorem egQ_eq : proveQ egCommit egOracle egSt egBits egTd egPd egCd = some egQd := by decide

theorem egOpenings_eq :
    proveOpenings egOpen egOracle egSt egBits egTd egPd egQd = egRun := by decide

/-- The concrete run succeeds, stage by stage. -/
theorem egRun_eq : egProve egBits = some egRun := by
  simp only [egProve, proveRun, egTrace_eq, Option.bind_eq_bind, Option.some_bind,
             egPolys_eq, egCe_eq, egConstr_eq, egQ_eq, egOpenings_eq]

/-- A bitmask selecting signers 0 and 2: valid input (correct size, two set
bits, no exceptional addition in the trace), but the interpolant of its
zero-extension `[1, 0, 1, 0]` has degree `2 < n - 1`, as the two set bits sit
`n/2` apart. -/
def egBitsBad : List Bool := [true, false, true]

/-- Accumulator-phase values for `egBitsBad`: the trace `[G, 3G, 3G, 7G]`
builds fine. -/
def egTdBad : TraceData F17 P19 :=
  { apk := 6, acc := [1, 3, 3, 7], bRes := [1, 0, 1, 0],
    accXRes := [5, 10, 10, 0], accYRes := [1, 6, 6, 6],
    xShift := [10, 10, 0, 5], yShift := [6, 6, 6, 1], apkhx := 0, apkhy := 6 }

theorem egTraceBad_eq : proveTrace cx19 cy19 egSt egBitsBad = some egTdBad := by decide

theorem egPolysBad_eq : provePolys egCommit egSt egTdBad = none := by decide

/-- The concrete prover panics on `egBitsBad` at the bitmask-interpolant
degree assert, although the bitmask itself is valid. -/
theorem egRunBad_eq : egProve egBitsBad = none := by
  simp only [egProve, proveRun, egTraceBad_eq, Option.bind_eq_bind, Option.some_bind,
             egPolysBad_eq, Option.none_bind]

/-- The concrete prover state with an SRS whose `max_degree` is `5` instead
of the exact quotient degree `3n - 3 = 9`; everything else is unchanged. -/
def egStBad : PState F17 P19 (List F17) := { egSt with pk := ⟨10, 5⟩ }

theorem egTraceSrs_eq : proveTrace cx19 cy19 egStBad egBits = some egTd := by decide

theorem egPolysSrs_eq : provePolys egCommit egStBad egTd = some egPd := by decide

theorem egCeSrs_eq : proveConstrEvs cx19 cy19 egStBad egTd egPd = egCe := by decide

theorem egConstrSrs_eq : proveConstraints egStBad egCe = some egCd := by decide

theorem egQSrs_eq :
    proveQ egCommit egOracle egStBad egBits egTd egPd egCd = none := by decide

/-- With the mismatched SRS capacity the concrete prover fails inside
`prove`, at the `max_degree` assert of line 340. -/
theorem egRunSrs_eq :
    proveRun cx19 cy19 egCommit egOpen egOracle egStBad egBits = none := by
  simp only [proveRun, egTraceSrs_eq, Option.bind_eq_bind, Option.some_bind,
             egPolysSrs_eq, egCeSrs_eq, egConstrSrs_eq, egQSrs_eq, Option.none_bind]

end ConcreteInstance

section AccumulatorLemmas

variable {F : Type} [Field F] [DecidableEq F]
variable {PT : Type} [AddCommGroup PT]

/-- Sum of the selected second components of a bit/point list, the form
`compute_apk` takes on the zipped lists. -/
def sumSel (l : List (Bool × PT)) : PT := ((l.filter (fun bp => bp.1)).map (fun bp => bp.2)).sum

theorem apkSum_eq_sumSel (bits : List Bool) (pks : List PT) :
    apkSum bits pks = sumSel (bits.zip pks) := rfl

theorem accRec_getD_zero (h : PT) (l : List (Bool × PT)) (d : PT) :
    (accRec h l).getD 0 d = h := by
  cases l <;> rfl

theorem accRec_getD_succ (h : PT) (l : List (Bool × PT)) (i : ℕ) (hi : i < l.length)
    (d : PT) (e : Bool × PT) :
    (accRec h l).getD (i + 1) d =
      (accRec h l).getD i d + (if (l.getD i e).1 then (l.getD i e).2 else 0) := by
  induction l generalizing h i with
  | nil => simp at hi
  | cons bp rest ih =>
    cases i with
    | zero =>
      simp only [accRec, List.getD_cons_succ, List.getD_cons_zero, accRec_getD_zero]
      by_cases hb : bp.1 <;> simp [hb]
    | succ i =>
      have hi' : i < rest.length := by simpa using hi
      simp only [accRec, List.getD_cons_succ]
      exact ih _ i hi'

theorem accRec_getD_last (h : PT) (l : List (Bool × PT)) (d : PT) :
    (accRec h l).getD l.length d = h + sumSel l := by
  induction l generalizing h with
  | nil => simp [accRec, sumSel]
  | cons bp rest ih =>
    simp only [accRec, List.length_cons, List.getD_cons_succ]
    rw [ih]
    by_cases hb : bp.1 <;>
      simp [sumSel, List.filter_cons, hb, add_assoc]

theorem getD_replicate {α : Type} (a : α) (k i : ℕ) (d : α) (h : i < k) :
    (List.replicate k a).getD i d = a := by
  rw [List.getD_eq_getElem _ _ (by simpa using h)]
  exact List.getElem_replicate ..

theorem zip_getD {α β : Type} (l : List α) (l' : List β) (i : ℕ) (d₁ : α) (d₂ : β)
    (h : i < l.length) (h' : i < l'.length) :
    (l.zip l').getD i (d₁, d₂) = (l.getD i d₁, l'.getD i d₂) := by
  rw [List.getD_eq_getElem _ _ (by simp [List.length_zip]; omega),
      List.getD_eq_getElem _ _ h, List.getD_eq_getElem _ _ h']
  exact List.getElem_zip ..

end AccumulatorLemmas

section Inversion

variable {F : Type} [Field F] [DecidableEq F]
variable {PT : Type} [AddCommGroup PT] [DecidableEq PT]
variable {Cm Op : Type} [DecidableEq Cm] [DecidableEq Op]
variable (cx cy : PT → F)
variable (commitF : List F → Cm) (openF : List F → F → Op)
variable (oracle : List (TItem F PT Cm) → Lbl → Fin (2 ^ 128))

theorem ensure_pos {c : Prop} [Decidable c] (h : c) : ensure c = some ⟨h⟩ :=
  dif_pos h

theorem proveRun_inv {st : PState F PT Cm} {b : List Bool} {r : Run F PT Cm Op}
    (h : proveRun cx cy commitF openF oracle st b = some r) :
    ∃ td pd cd qd,
      proveTrace cx cy st b = some td ∧
      provePolys commitF st td = some pd ∧
      proveConstraints st (proveConstrEvs cx cy st td pd) = some cd ∧
      proveQ commitF oracle st b td pd cd = some qd ∧
      r = proveOpenings openF oracle st b td pd qd := by
  rw [proveRun] at h
  simp only [Option.bind_eq_bind, Option.bind_eq_some, Option.some.injEq] at h
  obtain ⟨td, h1, pd, h2, cd, h3, qd, h4, h5⟩ := h
  exact ⟨td, pd, cd, qd, h1, h2, h3, h4, h5.symm⟩

theorem proveTrace_inv {st : PState F PT Cm} {b : List Bool} {td : TraceData F PT}
    (h : proveTrace cx cy st b = some td) :
    b.length = st.pks.length ∧ 0 < b.count true ∧
    td.apk = apkSum b st.pks ∧
    accTraceOpt cx st.h b st.pks = some td.acc ∧
    td.acc.getD 0 0 = st.h ∧
    td.acc.getD st.pks.length 0 = td.apk + st.h ∧
    td.bRes = resizeWith (b.map (fun bi => if bi then (1 : F) else 0)) st.n 0 ∧
    td.accXRes =
      resizeWith (td.acc.map cx) st.n ((td.acc.map cx).getD st.pks.length 0) ∧
    td.accYRes =
      resizeWith (td.acc.map cy) st.n ((td.acc.map cy).getD st.pks.length 0) := by
  rw [proveTrace] at h
  simp only [Option.bind_eq_bind, Option.bind_eq_some, Option.some.injEq] at h
  obtain ⟨x1, hx1, x2, hx2, acc, hacc, x3, hx3, x4, hx4, htd⟩ := h
  subst htd
  exact ⟨ensure_eq_some hx1, ensure_eq_some hx2, rfl, hacc,
         ensure_eq_some hx3, ensure_eq_some hx4, rfl, rfl, rfl⟩

theorem provePolys_inv {st : PState F PT Cm} {td : TraceData F PT} {pd : PolyData F Cm}
    (h : provePolys commitF st td = some pd) :
    pd.bPoly = interp st.winv st.ninv st.n td.bRes ∧
    pd.accXPoly = interp st.winv st.ninv st.n td.accXRes ∧
    pd.accYPoly = interp st.winv st.ninv st.n td.accYRes ∧
    (trim pd.bPoly).length = st.n ∧ natDeg pd.bPoly = st.n - 1 ∧
    pd.bComm = commitF pd.bPoly ∧ pd.accXComm = commitF pd.accXPoly ∧
    pd.accYComm = commitF pd.accYPoly := by
  rw [provePolys] at h
  simp only [Option.bind_eq_bind, Option.bind_eq_some, Option.some.injEq] at h
  obtain ⟨x1, hx1, x2, hx2, hpd⟩ := h
  subst hpd
  exact ⟨rfl, rfl, rfl, ensure_eq_some hx1, ensure_eq_some hx2, rfl, rfl, rfl⟩

theorem proveQ_inv {st : PState F PT Cm} {b : List Bool} {td : TraceData F PT}
    {pd : PolyData F Cm} {cd : ConstrData F} {qd : QData F PT Cm}
    (h : proveQ commitF oracle st b td pd cd = some qd) :
    qd.wP = wComb st.winv qd.phi cd.a1p cd.a2p cd.a3p cd.a4p cd.a5p ∧
    qd.qPoly = (vanishDiv st.n qd.wP).1 ∧
    qd.qRem = (vanishDiv st.n qd.wP).2 ∧
    trim qd.qRem = [] ∧
    natDeg qd.qPoly = 3 * st.n - 3 ∧
    st.pk.maxDegree = natDeg qd.qPoly ∧
    qd.qComm = commitF qd.qPoly ∧
    qd.t3 =
      st.preT ++
        [TItem.pubInput td.apk b, TItem.point Lbl.bComm pd.bComm,
         TItem.point Lbl.accXComm pd.accXComm, TItem.point Lbl.accYComm pd.accYComm,
         TItem.chal Lbl.phi, TItem.point Lbl.qComm qd.qComm] := by
  rw [proveQ] at h
  simp only [Option.bind_eq_bind, Option.bind_eq_some, Option.some.injEq] at h
  obtain ⟨x1, hx1, x2, hx2, x3, hx3, hqd⟩ := h
  subst hqd
  refine ⟨rfl, rfl, rfl, ensure_eq_some hx1, ensure_eq_some hx2, ensure_eq_some hx3,
    rfl, ?_⟩
  simp [List.append_assoc]

end Inversion

section Claims

variable {F : Type} [Field F] [DecidableEq F]
variable {PT : Type} [AddCommGroup PT] [DecidableEq PT]
variable {Cm Op : Type} [DecidableEq Cm] [DecidableEq Op]

/-- Claim C1: for every bitmask of size `m` with at least one set bit
(taking the data-model precondition `n ≥ m + 1` and non-identity public
keys), the accumulator trace built by `prove` satisfies: it has `m + 1`
entries with `acc[0] = h`; for each `i < m`, `acc[i+1] = acc[i] + b[i]·P[i]`
(the elliptic group sum), so `acc[i+1] = acc[i]` exactly when `b[i] = 0`;
`acc[m] = h + apk`; and after the extension of the coordinate and bitmask
arrays to length `n`, the entries at indices `i ∈ [m, n)` equal the
coordinate of `acc[m]` and `0` respectively.  Moreover the guarded trace
(exceptional-case-checking affine addition), when it succeeds, builds this
same trace. -/
theorem claim_C1 (n : ℕ) (h : PT) (bits : List Bool) (pks : List PT) (cx : PT → F)
    (hbp : pks.length = bits.length) (hone : 0 < bits.count true)
    (hmn : bits.length < n) (hnz : ∀ p ∈ pks, p ≠ 0) :
    (accTrace h bits pks).length = bits.length + 1 ∧
    (accTrace h bits pks).getD 0 0 = h ∧
    (∀ i, i < bits.length →
      (accTrace h bits pks).getD (i + 1) 0 =
        (accTrace h bits pks).getD i 0 +
          (if bits.getD i false then pks.getD i 0 else 0)) ∧
    (∀ i, i < bits.length →
      ((accTrace h bits pks).getD (i + 1) 0 = (accTrace h bits pks).getD i 0 ↔
        bits.getD i false = false)) ∧
    (accTrace h bits pks).getD bits.length 0 = h + apkSum bits pks ∧
    (∀ i, bits.length ≤ i → i < n →
      (resizeWith ((accTrace h bits pks).map cx) n
          (((accTrace h bits pks).map cx).getD bits.length 0)).getD i 0 =
        ((accTrace h bits pks).map cx).getD bits.length 0) ∧
    (∀ i, bits.length ≤ i → i < n →
      (resizeWith (bits.map (fun bi => if bi then (1 : F) else 0)) n 0).getD i 0 = 0) ∧
    (∀ l, accTraceOpt cx h bits pks = some l → l = accTrace h bits pks) := by
  have hzlen : (bits.zip pks).length = bits.length := by
    simp [List.length_zip, hbp]
  have hlen : (accTrace h bits pks).length = bits.length + 1 := by
    rw [accTrace, accRec_length, hzlen]
  refine ⟨hlen, accRec_getD_zero h _ 0, ?_, ?_, ?_, ?_, ?_, ?_⟩
  · intro i hi
    have hi' : i < (bits.zip pks).length := by omega
    rw [accTrace, accRec_getD_succ h _ i hi' 0 (false, 0),
        zip_getD bits pks i false 0 hi (by omega)]
  · intro i hi
    have hi' : i < (bits.zip pks).length := by omega
    rw [accTrace, accRec_getD_succ h _ i hi' 0 (false, 0),
        zip_getD bits pks i false 0 hi (by omega)]
    constructor
    · intro heq
      by_contra hb
      have hb' : bits.getD i false = true := by
        cases hbits : bits.getD i false
        · exact absurd hbits hb
        · rfl
      rw [hb'] at heq
      simp only [if_true] at heq
      have : pks.getD i 0 = 0 := by
        rwa [add_right_eq_self] at heq
      have hmem : pks.getD i 0 ∈ pks := by
        rw [List.getD_eq_getElem _ _ (by omega)]
        exact List.getElem_mem _
      exact hnz _ hmem this
    · intro hb
      rw [hb]
      simp
  · rw [accTrace, apkSum_eq_sumSel, ← hzlen, accRec_getD_last]
  · intro i him hin
    set accX := (accTrace h bits pks).map cx with haccX
    have haccXlen : accX.length = bits.length + 1 := by
      rw [haccX, List.length_map, hlen]
    have hle : accX.length ≤ n := by omega
    rw [resizeWith, if_pos hle]
    rcases Nat.eq_or_lt_of_le him with heq | hlt
    · rw [List.getD_append _ _ _ i (by omega), ← heq]
    · rw [List.getD_append_right _ _ _ i (by omega),
          getD_replicate _ _ _ _ (by omega)]
  · intro i him hin
    set bF := bits.map (fun bi => if bi then (1 : F) else 0) with hbF
    have hbFlen : bF.length = bits.length := by rw [hbF, List.length_map]
    have hle : bF.length ≤ n := by omega
    rw [resizeWith, if_pos hle]
    rw [List.getD_append_right _ _ _ i (by omega),
        getD_replicate _ _ _ _ (by omega)]
  · intro l hl
    exact accRecOpt_eq_accRec cx h (bits.zip pks) l hl

/-- Witness for claim C1 at the concrete instance: `h = G`,
`pks = [2G, 1G, 4G]`, bitmask `[1, 1, 0]`, `n = 4`. -/
theorem claim_C1_w :
    (accTrace (1 : P19) egBits [2, 1, 4]).getD 0 0 = 1 ∧
    (accTrace (1 : P19) egBits [2, 1, 4]).getD 2 0 =
      (accTrace (1 : P19) egBits [2, 1, 4]).getD 1 0 +
        (if egBits.getD 1 false then ([2, 1, 4] : List P19).getD 1 0 else 0) ∧
    ((accTrace (1 : P19) egBits [2, 1, 4]).getD 3 0 =
        (accTrace (1 : P19) egBits [2, 1, 4]).getD 2 0 ↔ egBits.getD 2 false = false) ∧
    (accTrace (1 : P19) egBits [2, 1, 4]).getD 3 0 = 1 + apkSum egBits [2, 1, 4] ∧
    (resizeWith (egBits.map (fun bi => if bi then (1 : F17) else 0)) 4 0).getD 3 0 = 0 := by
  have hc := claim_C1 (F := F17) 4 (1 : P19) egBits [2, 1, 4] cx19
    (by decide) (by decide) (by decide) (by decide)
  exact ⟨hc.2.1, hc.2.2.1 1 (by decide), hc.2.2.2.1 2 (by decide),
         hc.2.2.2.2.1, hc.2.2.2.2.2.2.1 3 (by decide) (by decide)⟩

set_option maxHeartbeats 2000000 in
/-- Claim C2: the five constraint evaluation vectors over the `4n` domain,
as assembled by `prove` (with `nB` the pointwise `1 - B`), agree pointwise
with the spec formulas:
`a1 = B·((x1−x2)²·(x1+x2+x3) − (y2−y1)²) + (1−B)·(y3−y1)`,
`a2 = B·((x1−x2)·(y3+y1) − (y2−y1)·(x3−x1)) + (1−B)·(x3−x1)`,
`a3 = B·(1−B)`,
`a4 = (x1−h_x)·L1 + (x1−apk_plus_h_x)·Ln`, and
`a5 = (y1−h_y)·L1 + (y1−apk_plus_h_y)·Ln`. -/
theorem claim_C2 (N : ℕ) (B x1 y1 x2 y2 x3 y3 l1 ln : List F) (hx apkhx hy apkhy : F)
    (i : ℕ) (hB : B.length = N) (hx1 : x1.length = N) (hy1 : y1.length = N)
    (hx2 : x2.length = N) (hy2 : y2.length = N) (hx3 : x3.length = N)
    (hy3 : y3.length = N) (hl1 : l1.length = N) (hln : ln.length = N) (hi : i < N) :
    (a1Ev B (oneMinus B) x1 y1 x2 y2 x3 y3).getD i 0 =
      B.getD i 0 *
        ((x1.getD i 0 - x2.getD i 0) ^ 2 *
            (x1.getD i 0 + x2.getD i 0 + x3.getD i 0) -
          (y2.getD i 0 - y1.getD i 0) ^ 2) +
      (1 - B.getD i 0) * (y3.getD i 0 - y1.getD i 0) ∧
    (a2Ev B (oneMinus B) x1 y1 x2 y2 x3 y3).getD i 0 =
      B.getD i 0 *
        ((x1.getD i 0 - x2.getD i 0) * (y3.getD i 0 + y1.getD i 0) -
          (y2.getD i 0 - y1.getD i 0) * (x3.getD i 0 - x1.getD i 0)) +
      (1 - B.getD i 0) * (x3.getD i 0 - x1.getD i 0) ∧
    (a3Ev B (oneMinus B)).getD i 0 = B.getD i 0 * (1 - B.getD i 0) ∧
    (a4Ev x1 l1 ln hx apkhx).getD i 0 =
      (x1.getD i 0 - hx) * l1.getD i 0 + (x1.getD i 0 - apkhx) * ln.getD i 0 ∧
    (a5Ev y1 l1 ln hy apkhy).getD i 0 =
      (y1.getD i 0 - hy) * l1.getD i 0 + (y1.getD i 0 - apkhy) * ln.getD i 0 := by
  have len : ∀ l : List F, l.length = N → i < l.length := fun l hl => by omega
  have hadd : ∀ a b : List F, a.length = N → b.length = N →
      (evAdd a b).getD i 0 = a.getD i 0 + b.getD i 0 ∧ (evAdd a b).length = N := by
    intro a b ha hb
    constructor
    · rw [List.getD_eq_getElem _ _ (by simp [evAdd, ha, hb]; omega),
        List.getD_eq_getElem _ _ (len a ha), List.getD_eq_getElem _ _ (len b hb)]
      exact List.getElem_zipWith
    · simp [evAdd, ha, hb]
  have hsub : ∀ a b : List F, a.length = N → b.length = N →
      (evSub a b).getD i 0 = a.getD i 0 - b.getD i 0 ∧ (evSub a b).length = N := by
    intro a b ha hb
    constructor
    · rw [List.getD_eq_getElem _ _ (by simp [evSub, ha, hb]; omega),
        List.getD_eq_getElem _ _ (len a ha), List.getD_eq_getElem _ _ (len b hb)]
      exact List.getElem_zipWith
    · simp [evSub, ha, hb]
  have hmul : ∀ a b : List F, a.length = N → b.length = N →
      (evMul a b).getD i 0 = a.getD i 0 * b.getD i 0 ∧ (evMul a b).length = N := by
    intro a b ha hb
    constructor
    · rw [List.getD_eq_getElem _ _ (by simp [evMul, ha, hb]; omega),
        List.getD_eq_getElem _ _ (len a ha), List.getD_eq_getElem _ _ (len b hb)]
      exact List.getElem_zipWith
    · simp [evMul, ha, hb]
  have hone : (oneMinus B).getD i 0 = 1 - B.getD i 0 ∧ (oneMinus B).length = N := by
    constructor
    · rw [List.getD_eq_getElem _ _ (by simp [oneMinus, hB]; omega),
        List.getD_eq_getElem _ _ (len B hB)]
      exact List.getElem_map _
    · simp [oneMinus, hB]
  have hconst : ∀ (a : List F) (c : F), a.length = N →
      (addConstE a c).getD i 0 = c + a.getD i 0 ∧ (addConstE a c).length = N := by
    intro a c ha
    constructor
    · rw [List.getD_eq_getElem _ _ (by simp [addConstE, ha]; omega),
        List.getD_eq_getElem _ _ (len a ha)]
      exact List.getElem_map _
    · simp [addConstE, ha]
  obtain ⟨hs1, ls1⟩ := hsub x1 x2 hx1 hx2
  obtain ⟨hm1, lm1⟩ := hmul _ _ ls1 ls1
  obtain ⟨ha0, la0⟩ := hadd x1 x2 hx1 hx2
  obtain ⟨ha1, la1⟩ := hadd _ x3 la0 hx3
  obtain ⟨hm2, lm2⟩ := hmul _ _ lm1 la1
  obtain ⟨hs2, ls2⟩ := hsub y2 y1 hy2 hy1
  obtain ⟨hm3, lm3⟩ := hmul _ _ ls2 ls2
  obtain ⟨hS, lS⟩ := hsub _ _ lm2 lm3
  obtain ⟨hmBS, lmBS⟩ := hmul B _ hB lS
  obtain ⟨hT, lT⟩ := hsub y3 y1 hy3 hy1
  obtain ⟨hmT, lmT⟩ := hmul _ _ hone.2 lT
  obtain ⟨hsy31, lsy31⟩ := hadd y3 y1 hy3 hy1
  obtain ⟨hsx31, lsx31⟩ := hsub x3 x1 hx3 hx1
  obtain ⟨hm4, lm4⟩ := hmul _ _ ls1 lsy31
  obtain ⟨hm5, lm5⟩ := hmul _ _ ls2 lsx31
  obtain ⟨hS2, lS2⟩ := hsub _ _ lm4 lm5
  obtain ⟨hmBS2, lmBS2⟩ := hmul B _ hB lS2
  obtain ⟨hmT2, lmT2⟩ := hmul _ _ hone.2 lsx31
  obtain ⟨hcx, lcx⟩ := hconst x1 (-hx) hx1
  obtain ⟨hcx2, lcx2⟩ := hconst x1 (-apkhx) hx1
  obtain ⟨hcy, lcy⟩ := hconst y1 (-hy) hy1
  obtain ⟨hcy2, lcy2⟩ := hconst y1 (-apkhy) hy1
  obtain ⟨hm6, lm6⟩ := hmul _ l1 lcx hl1
  obtain ⟨hm7, lm7⟩ := hmul _ ln lcx2 hln
  obtain ⟨hm8, lm8⟩ := hmul _ l1 lcy hl1
  obtain ⟨hm9, lm9⟩ := hmul _ ln lcy2 hln
  refine ⟨?_, ?_, ?_, ?_, ?_⟩
  · rw [a1Ev, (hadd _ _ lmBS lmT).1, hmBS, hS, hm2, hm1, hs1, ha1, ha0, hm3, hs2,
      hmT, hone.1, hT]
    ring
  · rw [a2Ev, (hadd _ _ lmBS2 lmT2).1, hmBS2, hS2, hm4, hs1, hsy31, hm5, hs2,
      hmT2, hone.1, hsx31]
  · rw [a3Ev, (hmul _ _ hB hone.2).1, hone.1]
  · rw [a4Ev, (hadd _ _ lm6 lm7).1, hm6, hcx, hm7, hcx2]
    ring
  · rw [a5Ev, (hadd _ _ lm8 lm9).1, hm8, hcy, hm9, hcy2]
    ring

/-- Claim C3: the combined polynomial formed by `prove` after the challenge
`φ` equals `W = (a1 + φ·a2)·(X − ω⁻¹) + φ²·a3 + φ³·a4 + φ⁴·a5`; and in every
run that `prove` completes, dividing `W` by `Z(X) = X^n − 1` leaves the zero
remainder (so `W = Z·q` as polynomials, for positive `n`) and the quotient
`q` has degree exactly `3n − 3`. -/
theorem claim_C3 (cx cy : PT → F) (commitF : List F → Cm) (openF : List F → F → Op)
    (oracle : List (TItem F PT Cm) → Lbl → Fin (2 ^ 128)) :
    (∀ (winv phi : F) (a1p a2p a3p a4p a5p : List F),
      toPoly (wComb winv phi a1p a2p a3p a4p a5p) =
        (toPoly a1p + Polynomial.C phi * toPoly a2p) *
            (Polynomial.X - Polynomial.C winv) +
          Polynomial.C phi ^ 2 * toPoly a3p + Polynomial.C phi ^ 3 * toPoly a4p +
          Polynomial.C phi ^ 4 * toPoly a5p) ∧
    (∀ (st : PState F PT Cm) (b : List Bool) (r : Run F PT Cm Op),
      proveRun cx cy commitF openF oracle st b = some r →
        trim r.qRem = [] ∧ natDeg r.qPoly = 3 * st.n - 3 ∧
        (0 < st.n → toPoly r.wPoly = (Polynomial.X ^ st.n - 1) * toPoly r.qPoly)) := by
  constructor
  · intro winv phi a1p a2p a3p a4p a5p
    simp only [wComb, powersOfPhi, List.getD_cons_zero, List.getD_cons_succ,
      toPoly_padAdd, toPoly_padSub, toPoly_smulL, toPoly_mulByX, map_mul]
    ring
  · intro st b r h
    obtain ⟨td, pd, cd, qd, h1, h2, h3, h4, h5⟩ := proveRun_inv cx cy commitF openF oracle h
    obtain ⟨hw, hq, hr, hrem, hdeg, hsrs, hcomm, ht3⟩ := proveQ_inv commitF oracle h4
    subst h5
    simp only [proveOpenings]
    refine ⟨hrem, hdeg, fun hn => ?_⟩
    rw [hq, hr] at *
    rw [← vanishDiv_dvd st.n hn qd.wP hrem]

/-- Witness for claim C3 at the concrete successful run. -/
theorem claim_C3_w :
    trim egRun.qRem = [] ∧ natDeg egRun.qPoly = 3 * egSt.n - 3 ∧
    toPoly egRun.wPoly = (Polynomial.X ^ egSt.n - 1) * toPoly egRun.qPoly := by
  have hc := (claim_C3 cx19 cy19 egCommit egOpen egOracle).2 egSt egBits egRun egRun_eq
  exact ⟨hc.1, hc.2.1, hc.2.2 (by decide)⟩

/-- Claim C4: the two batched opening polynomials formed after the challenge
`ν` are `W2 = acc_x + ν·acc_y` and
`W1 = pks_x + ν·pks_y + ν²·b + ν³·q + ν⁴·W2`, for every value of `ν`; and in
every completed run, `W2` is opened at the point `ζ·ω` and `W1` at `ζ`. -/
theorem claim_C4 (cx cy : PT → F) (commitF : List F → Cm) (openF : List F → F → Op)
    (oracle : List (TItem F PT Cm) → Lbl → Fin (2 ^ 128)) :
    (∀ (nu : F) (pksx pksy b q accx accy : List F),
      toPoly (w2Comb nu accx accy) = toPoly accx + Polynomial.C nu * toPoly accy ∧
      toPoly (w1Comb nu pksx pksy b q (w2Comb nu accx accy)) =
        toPoly pksx + Polynomial.C nu * toPoly pksy + Polynomial.C nu ^ 2 * toPoly b +
          Polynomial.C nu ^ 3 * toPoly q +
          Polynomial.C nu ^ 4 * toPoly (w2Comb nu accx accy)) ∧
    (∀ (st : PState F PT Cm) (b : List Bool) (r : Run F PT Cm Op),
      proveRun cx cy commitF openF oracle st b = some r →
        r.w2 = w2Comb r.nu r.accXPoly r.accYPoly ∧
        r.w1 = w1Comb r.nu st.pksXPoly st.pksYPoly r.bPoly r.qPoly r.w2 ∧
        r.proof.w2Proof = openF r.w2 r.zetaOmega ∧
        r.proof.w1Proof = openF r.w1 r.zeta ∧
        r.zetaOmega = r.zeta * st.g ^ 4) := by
  constructor
  · intro nu pksx pksy b q accx accy
    constructor
    · simp only [w2Comb, powersOfNu, List.getD_cons_zero, List.getD_cons_succ,
        toPoly_padAdd, toPoly_smulL]
    · simp only [w1Comb, powersOfNu, List.getD_cons_zero, List.getD_cons_succ,
        toPoly_padAdd, toPoly_smulL, map_mul]
      ring
  · intro st b r h
    obtain ⟨td, pd, cd, qd, h1, h2, h3, h4, h5⟩ := proveRun_inv cx cy commitF openF oracle h
    subst h5
    simp [proveOpenings]

/-- Witness for claim C4 at the concrete successful run. -/
theorem claim_C4_w :
    egRun.w2 = w2Comb egRun.nu egRun.accXPoly egRun.accYPoly ∧
    egRun.w1 = w1Comb egRun.nu egSt.pksXPoly egSt.pksYPoly egRun.bPoly egRun.qPoly egRun.w2 ∧
    egRun.proof.w2Proof = egOpen egRun.w2 egRun.zetaOmega ∧
    egRun.proof.w1Proof = egOpen egRun.w1 egRun.zeta ∧
    egRun.zetaOmega = egRun.zeta * egSt.g ^ 4 :=
  (claim_C4 cx19 cy19 egCommit egOpen egOracle).2 egSt egBits egRun egRun_eq

/-- Claim C5: in every completed run, the transcript consists of the
preprocessed prefix followed by exactly: the public input `(apk, bitmask)`;
the commitments `b_comm`, `acc_x_comm`, `acc_y_comm`; the squeeze of the
128-bit challenge `φ`; `q_comm`; the squeeze of `ζ`; the eight evaluations in
the order `(b, pks_x, pks_y, acc_x, acc_y, q, acc_x@ζω, acc_y@ζω)`; and the
squeeze of `ν`. -/
theorem claim_C5 (cx cy : PT → F) (commitF : List F → Cm) (openF : List F → F → Op)
    (oracle : List (TItem F PT Cm) → Lbl → Fin (2 ^ 128))
    (st : PState F PT Cm) (b : List Bool) (r : Run F PT Cm Op)
    (h : proveRun cx cy commitF openF oracle st b = some r) :
    r.transcript =
      st.preT ++
        [TItem.pubInput r.apk b,
         TItem.point Lbl.bComm r.proof.bComm,
         TItem.point Lbl.accXComm r.proof.accXComm,
         TItem.point Lbl.accYComm r.proof.accYComm,
         TItem.chal Lbl.phi,
         TItem.point Lbl.qComm r.proof.qComm,
         TItem.chal Lbl.zeta,
         TItem.scalar Lbl.bZeta r.proof.bZeta,
         TItem.scalar Lbl.pksXZeta r.proof.pksXZeta,
         TItem.scalar Lbl.pksYZeta r.proof.pksYZeta,
         TItem.scalar Lbl.accXZeta r.proof.accXZeta,
         TItem.scalar Lbl.accYZeta r.proof.accYZeta,
         TItem.scalar Lbl.qZeta r.proof.qZeta,
         TItem.scalar Lbl.accXZetaOmega r.proof.accXZetaOmega,
         TItem.scalar Lbl.accYZetaOmega r.proof.accYZetaOmega,
         TItem.chal Lbl.nu] ∧
    r.apk = apkSum b st.pks := by
  obtain ⟨td, pd, cd, qd, h1, h2, h3, h4, h5⟩ := proveRun_inv cx cy commitF openF oracle h
  obtain ⟨hw, hq, hr, hrem, hdeg, hsrs, hcomm, ht3⟩ := proveQ_inv commitF oracle h4
  have hapk := (proveTrace_inv cx cy h1).2.2.1
  subst h5
  simp only [proveOpenings]
  constructor
  · rw [ht3]
    simp [List.append_assoc]
  · exact hapk

/-- Witness for claim C5 at the concrete successful run. -/
theorem claim_C5_w :
    egRun.transcript =
      egSt.preT ++
        [TItem.pubInput egRun.apk egBits,
         TItem.point Lbl.bComm egRun.proof.bComm,
         TItem.point Lbl.accXComm egRun.proof.accXComm,
         TItem.point Lbl.accYComm egRun.proof.accYComm,
         TItem.chal Lbl.phi,
         TItem.point Lbl.qComm egRun.proof.qComm,
         TItem.chal Lbl.zeta,
         TItem.scalar Lbl.bZeta egRun.proof.bZeta,
         TItem.scalar Lbl.pksXZeta egRun.proof.pksXZeta,
         TItem.scalar Lbl.pksYZeta egRun.proof.pksYZeta,
         TItem.scalar Lbl.accXZeta egRun.proof.accXZeta,
         TItem.scalar Lbl.accYZeta egRun.proof.accYZeta,
         TItem.scalar Lbl.qZeta egRun.proof.qZeta,
         TItem.scalar Lbl.accXZetaOmega egRun.proof.accXZetaOmega,
         TItem.scalar Lbl.accYZetaOmega egRun.proof.accYZetaOmega,
         TItem.chal Lbl.nu] ∧
    egRun.apk = apkSum egBits egSt.pks :=
  claim_C5 cx19 cy19 egCommit egOpen egOracle egSt egBits egRun egRun_eq

/-- Witness for claim C2 on concrete one-point vectors. -/
theorem claim_C2_w :
    (a1Ev [2] (oneMinus [2]) [3] [4] [5] [6] [7] [8] : List F17).getD 0 0 =
      2 * ((3 - 5) ^ 2 * (3 + 5 + 7) - (6 - 4) ^ 2) + (1 - 2) * (8 - 4) ∧
    (a3Ev [2] (oneMinus [2]) : List F17).getD 0 0 = 2 * (1 - 2) := by
  have hc := claim_C2 (F := F17) 1 [2] [3] [4] [5] [6] [7] [8] [9] [10] 11 12 13 14 0
    (by decide) (by decide) (by decide) (by decide) (by decide) (by decide) (by decide)
    (by decide) (by decide) (by decide)
  exact ⟨hc.1, hc.2.2.1⟩

/-- Claim C6 counterexample: the bitmask `[1, 0, 1]` over the concrete
three-signer set has the right size, two set bits, and a trace free of
exceptional additions, yet `prove` aborts (the interpolant of the
zero-extended bitmask `[1, 0, 1, 0]` has degree `2 ≠ n − 1`, failing the
degree assert of line 231), so the listed failure conditions are not
exhaustive and `prove` does not return a proof in all other cases. -/
theorem claim_C6_cex :
    egBitsBad.length = egSt.pks.length ∧ 0 < egBitsBad.count true ∧
    (accTraceOpt cx19 egSt.h egBitsBad egSt.pks).isSome = true ∧
    egProve egBitsBad = none :=
  ⟨by decide, by decide, by decide, egRunBad_eq⟩

/-- Claim C6 (amended): `prove` fails whenever the bitmask size differs from
the number of signer keys, whenever zero bits are set, and whenever an
intermediate accumulator addition hits an exceptional affine-addition case;
these conditions are sufficient for failure but not exhaustive, as `prove`
may also abort on an internal algebraic assert. -/
theorem claim_C6 (cx cy : PT → F) (commitF : List F → Cm) (openF : List F → F → Op)
    (oracle : List (TItem F PT Cm) → Lbl → Fin (2 ^ 128))
    (st : PState F PT Cm) (b : List Bool)
    (hdisj : b.length ≠ st.pks.length ∨ b.count true = 0 ∨
      accTraceOpt cx st.h b st.pks = none) :
    proveRun cx cy commitF openF oracle st b = none := by
  have htr : proveTrace cx cy st b = none := by
    rw [proveTrace]
    rcases hdisj with h1 | h2 | h3
    · rw [ensure_eq_none_iff.mpr h1]
      simp
    · by_cases hlen : b.length = st.pks.length
      · rw [ensure_pos hlen, ensure_eq_none_iff.mpr (by omega)]
        simp
      · rw [ensure_eq_none_iff.mpr hlen]
        simp
    · by_cases hlen : b.length = st.pks.length
      · by_cases hcount : 0 < b.count true
        · rw [ensure_pos hlen, ensure_pos hcount, h3]
          simp
        · rw [ensure_pos hlen, ensure_eq_none_iff.mpr hcount]
          simp
      · rw [ensure_eq_none_iff.mpr hlen]
        simp
  rw [proveRun, htr]
  simp

/-- Witness for (amended) claim C6: a bitmask of the wrong size is rejected
by the concrete prover. -/
theorem claim_C6_w :
    proveRun cx19 cy19 egCommit egOpen egOracle egSt [true] = none ∧
    [true].length ≠ egSt.pks.length :=
  ⟨claim_C6 cx19 cy19 egCommit egOpen egOracle egSt [true] (Or.inl (by decide)),
   by decide⟩

/-- Claim C7 counterexample: `Prover::new` accepts an SRS whose `max_degree`
is `3`, far below the quotient degree `3n − 3 = 9` for `n = 4`, so the
quotient-degree capacity is not checked at construction; and `prove` itself
does perform an SRS-capacity check: with `max_degree = 5` (all other state
identical to the successful concrete instance) `prove` fails, while the
original instance succeeds. -/
theorem claim_C7_cex :
    (newModel cx19 cy19 4 ⟨4, 3⟩ ([1] : List F17) ([2, 1, 4] : List P19)
        ([] : List (TItem F17 P19 (List F17))) (1 : P19) (3 : F17)).isSome = true ∧
    (3 : ℕ) < 3 * 4 - 3 ∧
    proveRun cx19 cy19 egCommit egOpen egOracle egStBad egBits = none ∧
    egProve egBits ≠ none := by
  refine ⟨by decide, by decide, egRunSrs_eq, ?_⟩
  rw [egRun_eq]
  simp

/-- Claim C7 (amended): `Prover::new` fails exactly when `domain_size` is not
a power of two or exceeds the SRS coefficient capacity `max_coeffs`; it does
not validate capacity for the quotient degree.  The quotient-degree capacity
condition is instead enforced inside `prove`, which asserts that the SRS
`max_degree` equals `deg q = 3n − 3` in every completed run. -/
theorem claim_C7 (cx cy : PT → F) (commitF : List F → Cm) (openF : List F → F → Op)
    (oracle : List (TItem F PT Cm) → Lbl → Fin (2 ^ 128)) :
    (∀ (domainSize : ℕ) (pk : KzgPk) (sc : Cm) (pks : List PT)
        (et : List (TItem F PT Cm)) (hpt : PT) (g : F),
      newModel cx cy domainSize pk sc pks et hpt g ≠ none ↔
        isPowerOfTwo domainSize = true ∧ domainSize ≤ pk.maxCoeffs) ∧
    (∀ (st : PState F PT Cm) (b : List Bool) (r : Run F PT Cm Op),
      proveRun cx cy commitF openF oracle st b = some r →
        st.pk.maxDegree = natDeg r.qPoly ∧ natDeg r.qPoly = 3 * st.n - 3) := by
  constructor
  · intro domainSize pk sc pks et hpt g
    rw [newModel]
    by_cases hcond : isPowerOfTwo domainSize = true ∧ domainSize ≤ pk.maxCoeffs
    · rw [if_pos hcond]
      simp [hcond]
    · rw [if_neg hcond]
      simp [hcond]
  · intro st b r h
    obtain ⟨td, pd, cd, qd, h1, h2, h3, h4, h5⟩ :=
      proveRun_inv cx cy commitF openF oracle h
    obtain ⟨hw, hq, hr, hrem, hdeg, hsrs, hcomm, ht3⟩ := proveQ_inv commitF oracle h4
    subst h5
    simp only [proveOpenings]
    exact ⟨hsrs, hdeg⟩

/-- Witness for (amended) claim C7 at the concrete instance. -/
theorem claim_C7_w :
    newModel cx19 cy19 4 ⟨10, 9⟩ ([1] : List F17) ([2, 1, 4] : List P19)
        ([] : List (TItem F17 P19 (List F17))) (1 : P19) (3 : F17) ≠ none ∧
    egSt.pk.maxDegree = natDeg egRun.qPoly ∧ natDeg egRun.qPoly = 3 * egSt.n - 3 :=
  ⟨((claim_C7 cx19 cy19 egCommit egOpen egOracle).1 4 ⟨10, 9⟩ [1] [2, 1, 4] [] 1 3).mpr
      ⟨by decide, by decide⟩,
   (claim_C7 cx19 cy19 egCommit egOpen egOracle).2 egSt egBits egRun egRun_eq⟩

/-- Claim C9: `prove` is deterministic — the embedding is a pure function of
the prover state and the bitmask (the Fiat-Shamir oracle, commitment and
opening procedures being fixed), so two invocations on the same inputs
return the same run and in particular byte-identical proofs. -/
theorem claim_C9 (cx cy : PT → F) (commitF : List F → Cm) (openF : List F → F → Op)
    (oracle : List (TItem F PT Cm) → Lbl → Fin (2 ^ 128))
    (st : PState F PT Cm) (b : List Bool) (r1 r2 : Run F PT Cm Op)
    (h1 : proveRun cx cy commitF openF oracle st b = some r1)
    (h2 : proveRun cx cy commitF openF oracle st b = some r2) :
    r1 = r2 ∧ r1.proof = r2.proof := by
  rw [h1] at h2
  have := Option.some.inj h2
  exact ⟨this, by rw [this]⟩

/-- Witness for claim C9: two invocations of the concrete prover agree. -/
theorem claim_C9_w : egRun = egRun ∧ egRun.proof = egRun.proof :=
  claim_C9 cx19 cy19 egCommit egOpen egOracle egSt egBits egRun egRun egRun_eq egRun_eq

/-- Claim C10: neither `Prover::new` nor `prove` checks the data-model
requirement `n ≥ m + 1`.  For a signer set with `m ≥ n` keys, construction
succeeds (its checks never mention `m`), the bitmask-size check succeeds, and
the `resize_with` of the length-`(m+1)` accumulator coordinate array to
length `n` silently truncates the trailing trace entries instead of
failing. -/
theorem claim_C10 (cx cy : PT → F) (n m : ℕ) (pk : KzgPk) (sc : Cm) (pks : List PT)
    (et : List (TItem F PT Cm)) (hpt : PT) (g : F) (bits : List Bool)
    (hnm : n ≤ m) (hpks : pks.length = m) (hbits : bits.length = m)
    (hpow : isPowerOfTwo n = true) (hcap : n ≤ pk.maxCoeffs) :
    (newModel cx cy n pk sc pks et hpt g).isSome = true ∧
    (ensure (bits.length = pks.length)).isSome = true ∧
    (accTrace hpt bits pks).length = m + 1 ∧
    n < ((accTrace hpt bits pks).map cx).length ∧
    resizeWith ((accTrace hpt bits pks).map cx) n
        (((accTrace hpt bits pks).map cx).getD m 0) =
      ((accTrace hpt bits pks).map cx).take n ∧
    (resizeWith ((accTrace hpt bits pks).map cx) n
        (((accTrace hpt bits pks).map cx).getD m 0)).length = n ∧
    resizeWith ((accTrace hpt bits pks).map cx) n
        (((accTrace hpt bits pks).map cx).getD m 0) ≠
      ((accTrace hpt bits pks).map cx) := by
  have hlen : (accTrace hpt bits pks).length = m + 1 := by
    rw [accTrace, accRec_length, List.length_zip, hpks, hbits]
    omega
  have hmlen : ((accTrace hpt bits pks).map cx).length = m + 1 := by
    rw [List.length_map, hlen]
  have hngt : ¬(((accTrace hpt bits pks).map cx).length ≤ n) := by omega
  refine ⟨?_, ?_, hlen, by omega, ?_, ?_, ?_⟩
  · rw [newModel, if_pos ⟨hpow, hcap⟩]
    rfl
  · exact ensure_isSome_iff.mpr (by omega)
  · rw [resizeWith, if_neg hngt]
  · rw [resizeWith, if_neg hngt, List.length_take]
    omega
  · rw [resizeWith, if_neg hngt]
    intro heq
    have := congrArg List.length heq
    rw [List.length_take] at this
    omega

/-- Witness for claim C10 at a concrete four-signer set with `n = m = 4`. -/
theorem claim_C10_w :
    (newModel cx19 cy19 4 ⟨10, 9⟩ ([1] : List F17) ([2, 1, 4, 6] : List P19)
        ([] : List (TItem F17 P19 (List F17))) (1 : P19) (3 : F17)).isSome = true ∧
    (ensure (([true, true, false, false] : List Bool).length =
        ([2, 1, 4, 6] : List P19).length)).isSome = true ∧
    (accTrace (1 : P19) [true, true, false, false] [2, 1, 4, 6]).length = 4 + 1 ∧
    4 < ((accTrace (1 : P19) [true, true, false, false] [2, 1, 4, 6]).map cx19).length ∧
    resizeWith ((accTrace (1 : P19) [true, true, false, false] [2, 1, 4, 6]).map cx19) 4
        (((accTrace (1 : P19) [true, true, false, false] [2, 1, 4, 6]).map cx19).getD 4 0) =
      ((accTrace (1 : P19) [true, true, false, false] [2, 1, 4, 6]).map cx19).take 4 ∧
    (resizeWith ((accTrace (1 : P19) [true, true, false, false] [2, 1, 4, 6]).map cx19) 4
        (((accTrace (1 : P19) [true, true, false, false] [2, 1, 4, 6]).map cx19).getD 4 0)).length = 4 ∧
    resizeWith ((accTrace (1 : P19) [true, true, false, false] [2, 1, 4, 6]).map cx19) 4
        (((accTrace (1 : P19) [true, true, false, false] [2, 1, 4, 6]).map cx19).getD 4 0) ≠
      ((accTrace (1 : P19) [true, true, false, false] [2, 1, 4, 6]).map cx19) :=
  claim_C10 cx19 cy19 4 4 ⟨10, 9⟩ [1] [2, 1, 4, 6] [] 1 3 [true, true, false, false]
    (by decide) (by decide) (by decide) (by decide) (by decide)

/-- Claim C8: the shift identity.  For `v` of length `n` on the size-`n`
domain with generator `ω` (where `winv = ω⁻¹` and `ninv = n⁻¹` are the cached
domain inverses), the interpolant of `v` evaluated at `x·ω` equals the
interpolant of the left-rotation of `v` evaluated at `x`, for every field
element `x`. -/
theorem claim_C8 (ω winv ninv x : F) (n : ℕ) (v : List F)
    (hn : 0 < n) (hω : ω ^ n = 1) (hwinv : winv * ω = 1) (hv : v.length = n) :
    evalList (interp winv ninv n v) (x * ω) =
      evalList (interp winv ninv n (v.rotate 1)) x := by
  rw [interp, interp, evalList_map_range, evalList_map_range]
  refine Finset.sum_congr rfl (fun j _ => ?_)
  obtain ⟨a, t, rfl⟩ : ∃ a t, v = a :: t := by
    cases v with
    | nil => simp at hv; omega
    | cons a t => exact ⟨a, t, rfl⟩
  have hwn : winv ^ n = 1 := by
    have h1 : (winv * ω) ^ n = 1 := by rw [hwinv, one_pow]
    rwa [mul_pow, hω, mul_one] at h1
  have hun : (winv ^ j) ^ n = 1 := by
    rw [← pow_mul, mul_comm j n, pow_mul, hwn, one_pow]
  have hcancel : winv ^ j * ω ^ j = 1 := by rw [← mul_pow, hwinv, one_pow]
  have hwj : ω ^ j = (winv ^ j) ^ (n - 1) := by
    have hsplit : (winv ^ j) ^ n = winv ^ j * (winv ^ j) ^ (n - 1) := by
      conv_lhs => rw [show n = 1 + (n - 1) by omega]
      rw [pow_add, pow_one]
    calc ω ^ j = ω ^ j * (winv ^ j) ^ n := by rw [hun, mul_one]
      _ = winv ^ j * ω ^ j * (winv ^ j) ^ (n - 1) := by rw [hsplit]; ring
      _ = (winv ^ j) ^ (n - 1) := by rw [hcancel, one_mul]
  have hrot : (a :: t).rotate 1 = t ++ [a] := by
    have h0 := List.rotate_cons_succ t a 0
    simpa using h0
  have ht : t.length = n - 1 := by
    simp only [List.length_cons] at hv
    omega
  have key : winv ^ j * (winv ^ j) ^ (n - 1) = 1 := by
    have h2 : (winv ^ j) ^ (n - 1 + 1) = winv ^ j * (winv ^ j) ^ (n - 1) :=
      pow_succ' _ _
    rw [← h2, show n - 1 + 1 = n by omega, hun]
  rw [hrot, evalList_append, ht, mul_pow, hwj, evalList_cons, evalList_cons,
    evalList_nil]
  linear_combination (ninv * x ^ j * evalList t (winv ^ j)) * key

/-- Witness for claim C8 on the concrete size-4 domain of `F17` (generator
`ω = 13`, cached inverses `winv = 4`, `ninv = 13`). -/
theorem claim_C8_w :
    evalList (interp (4 : F17) 13 4 [1, 2, 3, 4]) (5 * 13) =
      evalList (interp (4 : F17) 13 4 (([1, 2, 3, 4] : List F17).rotate 1)) 5 :=
  claim_C8 13 4 13 5 4 [1, 2, 3, 4] (by decide) (by decide) (by decide) (by decide)

end Claims

end APK
